import Mathlib

/-!
Verification of the tensorboard-plotter core against its specification.

The definitions below are a shallow embedding of
src/tensorboard_plotter/plot.py.  Values are modelled as rationals;
pandas Series become Lean lists.
-/

namespace TBPlotter

/-! ## Smoothing Engine

`df["value"].ewm(alpha=alpha_i).mean()` (plot.py line 103) uses pandas'
adjusted exponentially weighted mean: it keeps a running numerator and
denominator, `num_i = w * num_(i-1) + x_i` and `den_i = w * den_(i-1) + 1`
with weight `w = 1 - alpha_i`, and outputs `num_i / den_i`. -/

/-- Running-accumulator form of the pandas adjusted EWM recurrence. -/
def ewmAux (w : ℚ) : ℚ → ℚ → List ℚ → List ℚ
  | _, _, [] => []
  | num, den, x :: xs =>
    ((w * num + x) / (w * den + 1)) :: ewmAux w (w * num + x) (w * den + 1) xs

/-- The smoothing applied by `Series.ewm(alpha=a).mean()` with `adjust=True`
(the pandas default), as invoked at plot.py line 103. -/
def pandasEwm (a : ℚ) (vals : List ℚ) : List ℚ :=
  ewmAux (1 - a) 0 0 vals

/-- The `ewm` call including pandas' own parameter validation: pandas raises
`ValueError` unless `0 < alpha <= 1`. -/
def ewmChecked (a : ℚ) (vals : List ℚ) : Except String (List ℚ) :=
  if 0 < a ∧ a ≤ 1 then .ok (pandasEwm a vals)
  else .error "alpha must satisfy 0 < alpha <= 1"

/-- The decay factor actually fed to smoothing (plot.py lines 312-314):
`alpha_i = 1 - alpha`, floored to `1e-4` when it is exactly 0. -/
def alphaEff (alpha : ℚ) : ℚ :=
  if 1 - alpha = 0 then 1 / 10000 else 1 - alpha

/-- Closed-form numerator of the adjusted EWM at index `i`. -/
def ewmNum (w : ℚ) (vals : List ℚ) (i : ℕ) : ℚ :=
  ∑ k ∈ Finset.range (i + 1), w ^ (i - k) * vals.getD k 0

/-- Closed-form denominator of the adjusted EWM at index `i`. -/
def ewmDen (w : ℚ) (i : ℕ) : ℚ :=
  ∑ k ∈ Finset.range (i + 1), w ^ (i - k)

lemma ewmNum_cons (w x : ℚ) (xs : List ℚ) (j : ℕ) :
    ewmNum w (x :: xs) (j + 1) = w ^ (j + 1) * x + ewmNum w xs j := by
  unfold ewmNum
  rw [Finset.sum_range_succ']
  simp only [Nat.succ_sub_succ, List.getD_cons_succ, List.getD_cons_zero,
    Nat.sub_zero]
  ring

lemma ewmDen_succ (w : ℚ) (j : ℕ) :
    ewmDen w (j + 1) = w ^ (j + 1) + ewmDen w j := by
  unfold ewmDen
  rw [Finset.sum_range_succ']
  simp only [Nat.succ_sub_succ, Nat.sub_zero]
  ring

lemma ewmAux_getD (w : ℚ) :
    ∀ (xs : List ℚ) (num den : ℚ) (i : ℕ), i < xs.length →
      (ewmAux w num den xs).getD i 0 =
        (w ^ (i + 1) * num + ewmNum w xs i) / (w ^ (i + 1) * den + ewmDen w i)
  | [], _, _, _, h => absurd h (by simp)
  | x :: xs, num, den, 0, _ => by
      simp [ewmAux, ewmNum, ewmDen]
  | x :: xs, num, den, j + 1, h => by
      have hj : j < xs.length := by simpa using Nat.lt_of_succ_lt_succ h
      have ih := ewmAux_getD w xs (w * num + x) (w * den + 1) j hj
      simp only [ewmAux, List.getD_cons_succ]
      rw [ih, ewmNum_cons, ewmDen_succ]
      ring_nf

lemma ewmAux_length (w : ℚ) :
    ∀ (xs : List ℚ) (num den : ℚ), (ewmAux w num den xs).length = xs.length
  | [], _, _ => rfl
  | x :: xs, num, den => by
      simp [ewmAux, ewmAux_length w xs]

lemma ewmAux_w_zero : ∀ (xs : List ℚ) (num den : ℚ), ewmAux 0 num den xs = xs
  | [], _, _ => rfl
  | x :: xs, num, den => by
      simp [ewmAux, ewmAux_w_zero xs]

/-- Minimum of a list of rationals (empty list maps to 0). -/
def listMin : List ℚ → ℚ
  | [] => 0
  | [x] => x
  | x :: y :: xs => min x (listMin (y :: xs))

/-- Maximum of a list of rationals (empty list maps to 0). -/
def listMax : List ℚ → ℚ
  | [] => 0
  | [x] => x
  | x :: y :: xs => max x (listMax (y :: xs))

lemma listMin_le_of_mem : ∀ {l : List ℚ} {y : ℚ}, y ∈ l → listMin l ≤ y
  | [], _, h => absurd h (by simp)
  | [x], y, h => by
      simp at h; simp [listMin, h]
  | x :: z :: xs, y, h => by
      rcases List.mem_cons.mp h with h1 | h2
      · simp [listMin, h1, min_le_left]
      · exact le_trans (min_le_right _ _) (listMin_le_of_mem h2)

lemma le_listMax_of_mem : ∀ {l : List ℚ} {y : ℚ}, y ∈ l → y ≤ listMax l
  | [], _, h => absurd h (by simp)
  | [x], y, h => by
      simp at h; simp [listMax, h]
  | x :: z :: xs, y, h => by
      rcases List.mem_cons.mp h with h1 | h2
      · simp [listMax, h1, le_max_left]
      · exact le_trans (le_listMax_of_mem h2) (le_max_right _ _)

lemma ewmAux_bounds (w lo hi : ℚ) (hw : 0 ≤ w) :
    ∀ (xs : List ℚ) (num den : ℚ), 0 ≤ den → lo * den ≤ num → num ≤ hi * den →
      (∀ x ∈ xs, lo ≤ x ∧ x ≤ hi) →
      ∀ y ∈ ewmAux w num den xs, lo ≤ y ∧ y ≤ hi
  | [], _, _, _, _, _, _, _, h => absurd h (by simp [ewmAux])
  | x :: xs, num, den, hden, hlo, hhi, hmem, y, hy => by
      have hx : lo ≤ x ∧ x ≤ hi := hmem x (List.mem_cons_self x xs)
      have hden2 : (0 : ℚ) < w * den + 1 := by nlinarith [mul_nonneg hw hden]
      have hlo2 : lo * (w * den + 1) ≤ w * num + x := by
        nlinarith [mul_le_mul_of_nonneg_left hlo hw]
      have hhi2 : w * num + x ≤ hi * (w * den + 1) := by
        nlinarith [mul_le_mul_of_nonneg_left hhi hw]
      simp only [ewmAux, List.mem_cons] at hy
      rcases hy with hy | hy
      · subst hy
        constructor
        · rw [le_div_iff hden2]; exact hlo2
        · rw [div_le_iff hden2]; exact hhi2
      · exact ewmAux_bounds w lo hi hw xs (w * num + x) (w * den + 1)
          (le_of_lt hden2) hlo2 hhi2
          (fun z hz => hmem z (List.mem_cons_of_mem x hz)) y hy

lemma alphaEff_mem (alpha : ℚ) (h0 : 0 ≤ alpha) (h1 : alpha ≤ 1) :
    0 < alphaEff alpha ∧ alphaEff alpha ≤ 1 := by
  unfold alphaEff
  by_cases h : 1 - alpha = 0
  · rw [if_pos h]; norm_num
  · rw [if_neg h]
    constructor
    · rcases lt_or_eq_of_le h1 with hlt | heq
      · linarith
      · exact absurd (by rw [heq]; ring) h
    · linarith

/-- C3: for every decay factor `d` in `(0, 1]` and non-empty raw value list,
the smoothing step satisfies `smoothed[0] = value[0]` and the closed form
`smoothed[i] = (Σ_k (1-d)^(i-k) * value[k]) / (Σ_k (1-d)^(i-k))`; and for
`d = 1` (user alpha 0) the smoothed sequence equals the raw values. -/
theorem smoothing_closed_form (d : ℚ) (vals : List ℚ)
    (hd0 : 0 < d) (hd1 : d ≤ 1) (hne : vals ≠ []) :
    (pandasEwm d vals).headD 0 = vals.headD 0 ∧
    (∀ i, i < vals.length →
      (pandasEwm d vals).getD i 0 =
        (∑ k ∈ Finset.range (i + 1), (1 - d) ^ (i - k) * vals.getD k 0) /
        (∑ k ∈ Finset.range (i + 1), (1 - d) ^ (i - k))) ∧
    (d = 1 → pandasEwm d vals = vals) := by
  have hform : ∀ i, i < vals.length →
      (pandasEwm d vals).getD i 0 = ewmNum (1 - d) vals i / ewmDen (1 - d) i := by
    intro i hi
    rw [pandasEwm, ewmAux_getD (1 - d) vals 0 0 i hi]
    ring_nf
  refine ⟨?_, ?_, ?_⟩
  · cases vals with
    | nil => exact absurd rfl hne
    | cons x xs =>
        have h0' := hform 0 (by simp)
        have hnum : ewmNum (1 - d) (x :: xs) 0 = x := by
          simp [ewmNum]
        have hden : ewmDen (1 - d) 0 = 1 := by
          simp [ewmDen]
        have hlen : (pandasEwm d (x :: xs)).length = (x :: xs).length := by
          rw [pandasEwm]; exact ewmAux_length (1 - d) (x :: xs) 0 0
        cases hp : pandasEwm d (x :: xs) with
        | nil => rw [hp] at hlen; simp at hlen
        | cons y ys =>
            rw [hp] at h0'
            simp only [List.getD_cons_zero] at h0'
            simp [List.headD, h0', hnum, hden]
  · intro i hi
    rw [hform i hi]; rfl
  · intro hd
    rw [pandasEwm, hd]
    simpa using ewmAux_w_zero vals 0 0

/-- Witness for C3 at `d = 1/2`, `vals = [1, 2]`. -/
theorem smoothing_closed_form_witness :
    ((0 : ℚ) < 1 / 2 ∧ (1 : ℚ) / 2 ≤ 1 ∧ ([1, 2] : List ℚ) ≠ []) ∧
    ((pandasEwm (1 / 2) [1, 2]).headD 0 = ([1, 2] : List ℚ).headD 0 ∧
      (∀ i, i < ([1, 2] : List ℚ).length →
        (pandasEwm (1 / 2) [1, 2]).getD i 0 =
          (∑ k ∈ Finset.range (i + 1),
              (1 - 1 / 2 : ℚ) ^ (i - k) * ([1, 2] : List ℚ).getD k 0) /
          (∑ k ∈ Finset.range (i + 1), (1 - 1 / 2 : ℚ) ^ (i - k))) ∧
      ((1 : ℚ) / 2 = 1 → pandasEwm (1 / 2) [1, 2] = [1, 2])) :=
  ⟨⟨by norm_num, by norm_num, by simp⟩,
    smoothing_closed_form (1 / 2) [1, 2] (by norm_num) (by norm_num) (by simp)⟩

/-- C9: smoothing preserves length, for every decay factor and every raw
series: no samples are dropped or added. -/
theorem smoothing_preserves_length (a : ℚ) (vals : List ℚ) :
    (pandasEwm a vals).length = vals.length := by
  rw [pandasEwm]; exact ewmAux_length (1 - a) vals 0 0

/-- C8: for every user alpha in `[0, 1]` and non-empty raw sequence, every
smoothed value (through the actual pipeline, including the `1e-4` floor)
lies within `[min(values), max(values)]` of the raw sequence. -/
theorem smoothing_bounds (alpha : ℚ) (vals : List ℚ)
    (h0 : 0 ≤ alpha) (h1 : alpha ≤ 1) (hne : vals ≠ []) :
    ∀ y ∈ pandasEwm (alphaEff alpha) vals,
      listMin vals ≤ y ∧ y ≤ listMax vals := by
  obtain ⟨hpos, hle⟩ := alphaEff_mem alpha h0 h1
  have hw : (0 : ℚ) ≤ 1 - alphaEff alpha := by linarith
  rw [pandasEwm]
  exact ewmAux_bounds (1 - alphaEff alpha) (listMin vals) (listMax vals) hw
    vals 0 0 le_rfl (by simp) (by simp)
    (fun x hx => ⟨listMin_le_of_mem hx, le_listMax_of_mem hx⟩)

/-- Witness for C8 at `alpha = 1/2`, `vals = [1, 3]`. -/
theorem smoothing_bounds_witness :
    ((0 : ℚ) ≤ 1 / 2 ∧ (1 : ℚ) / 2 ≤ 1 ∧ ([1, 3] : List ℚ) ≠ []) ∧
    (∀ y ∈ pandasEwm (alphaEff (1 / 2)) [1, 3],
      listMin [1, 3] ≤ y ∧ y ≤ listMax [1, 3]) :=
  ⟨⟨by norm_num, by norm_num, by simp⟩,
    smoothing_bounds (1 / 2) [1, 3] (by norm_num) (by norm_num) (by simp)⟩

/-- C5: the effective decay factor at user alpha 1 is floored to `1e-4`
(not 0); for every alpha in `[0, 1]` the pandas `ewm` call validates and
raises no error; and at alpha 1 every closed-form denominator is strictly
positive, so no non-finite smoothed value arises. -/
theorem alpha_floor (vals : List ℚ) :
    alphaEff 1 = 1 / 10000 ∧
    (∀ alpha : ℚ, 0 ≤ alpha → alpha ≤ 1 →
      ∃ out, ewmChecked (alphaEff alpha) vals = .ok out) ∧
    (∀ i, 0 < ∑ k ∈ Finset.range (i + 1), (1 - alphaEff 1) ^ (i - k)) := by
  refine ⟨by norm_num [alphaEff], ?_, ?_⟩
  · intro alpha ha0 ha1
    exact ⟨pandasEwm (alphaEff alpha) vals,
      by rw [ewmChecked, if_pos (alphaEff_mem alpha ha0 ha1)]⟩
  · intro i
    apply Finset.sum_pos
    · intro k _
      apply pow_pos
      norm_num [alphaEff]
    · exact Finset.nonempty_range_succ

/-- Witness for C5 at `vals = [2]`, inner alpha 1. -/
theorem alpha_floor_witness :
    alphaEff 1 = 1 / 10000 ∧
    ((0 : ℚ) ≤ 1 ∧ (1 : ℚ) ≤ 1 ∧
      ∃ out, ewmChecked (alphaEff 1) [(2 : ℚ)] = .ok out) :=
  ⟨(alpha_floor []).1,
    by norm_num, by norm_num,
    (alpha_floor [(2 : ℚ)]).2.1 1 (by norm_num) (by norm_num)⟩

/-! ## Version Aggregator mean curve (plot.py lines 188-242)

`pd.concat(all_runs_values, axis=1)` outer-joins the run series on their
positional index, so the concatenated frame has as many rows as the longest
run, with missing entries where a shorter run has ended.  `.mean(axis=1)`
skips missing entries, so row `i` averages exactly the runs that still have
a value at position `i`.  The curve is then cut to
`min(len(all_runs_x[-1]), len(mean_values))`, i.e. to the length of the
last run's x series (plot.py lines 225-227). -/

/-- Values present at row `i` across the run value series. -/
def valuesAt (runs : List (List ℚ)) (i : ℕ) : List ℚ :=
  runs.filterMap (fun r => r[i]?)

/-- Row `i` of `pd.concat(...).mean(axis=1)`: the skip-missing mean. -/
def rowMean (runs : List (List ℚ)) (i : ℕ) : ℚ :=
  (valuesAt runs i).sum / ((valuesAt runs i).length : ℚ)

/-- Number of rows of the concatenated frame: the longest run length. -/
def maxLen (runs : List (List ℚ)) : ℕ :=
  runs.foldr (fun r m => max r.length m) 0

/-- The `mean_values` series (plot.py line 222). -/
def meanValues (runs : List (List ℚ)) : List ℚ :=
  (List.range (maxLen runs)).map (rowMean runs)

/-- The y values of the plotted mean line (plot.py lines 225-227): the mean
series cut to `min(len(all_runs_x[-1]), len(mean_values))`, where
`all_runs_x[-1]` is the last run's x column and has that run's length. -/
def meanCurve (runs : List (List ℚ)) : List ℚ :=
  (meanValues runs).take (min (runs.getLastD []).length (meanValues runs).length)

lemma length_le_maxLen :
    ∀ {runs : List (List ℚ)} {r : List ℚ}, r ∈ runs → r.length ≤ maxLen runs
  | [], _, h => absurd h (by simp)
  | s :: rest, r, h => by
      rcases List.mem_cons.mp h with h1 | h2
      · subst h1; exact le_max_left _ _
      · exact le_trans (length_le_maxLen h2) (le_max_right _ _)

lemma getLastD_mem {α : Type} :
    ∀ (l : List α) (d : α), l ≠ [] → l.getLastD d ∈ l
  | [], _, h => absurd rfl h
  | [x], d, _ => by simp
  | x :: y :: xs, d, _ => by
      have := getLastD_mem (y :: xs) x (by simp)
      simpa [List.getLastD_cons] using Or.inr this

lemma meanValues_length (runs : List (List ℚ)) :
    (meanValues runs).length = maxLen runs := by
  simp [meanValues]

/-- Amended C1: the plotted mean curve has the length of the LAST
contributing run (not the shortest), it is bounded by the longest
contributing length, and entry `i` is the average of the values of exactly
those runs that still have a sample at position `i`. -/
theorem mean_curve_amended (runs : List (List ℚ)) (hne : runs ≠ []) :
    (meanCurve runs).length = (runs.getLastD []).length ∧
    (meanCurve runs).length ≤ maxLen runs ∧
    ∀ i, i < (meanCurve runs).length →
      (meanCurve runs).getD i 0 =
        (valuesAt runs i).sum / ((valuesAt runs i).length : ℚ) := by
  have hlast : (runs.getLastD []).length ≤ maxLen runs :=
    length_le_maxLen (getLastD_mem runs [] hne)
  have hmin : min (runs.getLastD []).length (meanValues runs).length =
      (runs.getLastD []).length := by
    rw [meanValues_length]; exact min_eq_left hlast
  have hlen : (meanCurve runs).length = (runs.getLastD []).length := by
    rw [meanCurve, List.length_take, hmin, meanValues_length]
    exact min_eq_left hlast
  refine ⟨hlen, hlen ▸ hlast, ?_⟩
  intro i hi
  rw [hlen] at hi
  have hiM : i < maxLen runs := lt_of_lt_of_le hi hlast
  have hi' : i < (meanCurve runs).length := by rw [hlen]; exact hi
  rw [List.getD_eq_getElem _ 0 hi']
  simp [meanCurve, meanValues, rowMean, hiM]

/-- A version whose smoothed runs have lengths 7, 5, 9 in iteration order. -/
def runs759 : List (List ℚ) :=
  [List.replicate 7 1, List.replicate 5 1, List.replicate 9 1]

/-- Counterexample to C1: for smoothed run lengths 7, 5, 9 the plotted mean
curve has length 9, not 5, and its length exceeds the shortest contributing
length. -/
theorem mean_curve_length_cex :
    (meanCurve runs759).length = 9 ∧ ¬ (meanCurve runs759).length ≤ 5 := by
  constructor
  · rfl
  · intro h
    have : (9 : ℕ) ≤ 5 := by
      have h9 : (meanCurve runs759).length = 9 := rfl
      rw [h9] at h; exact h
    omega

/-- Witness for the amended C1 at runs of lengths 2 and 1. -/
theorem mean_curve_amended_witness :
    (([[1, 2], [4]] : List (List ℚ)) ≠ []) ∧
    ((meanCurve [[1, 2], [4]]).length = (([[1, 2], [4]] : List (List ℚ)).getLastD []).length ∧
      (meanCurve [[1, 2], [4]]).length ≤ maxLen [[1, 2], [4]] ∧
      ∀ i, i < (meanCurve [[1, 2], [4]]).length →
        (meanCurve [[1, 2], [4]]).getD i 0 =
          (valuesAt [[1, 2], [4]] i).sum / ((valuesAt [[1, 2], [4]] i).length : ℚ)) :=
  ⟨by simp, mean_curve_amended [[1, 2], [4]] (by simp)⟩

/-! ## Toggle Controller (plot.py lines 160-291)

`_plot_versions` walks `version_data` in order.  For each version it appends
a run-line list (each run line drawn with display alpha `0.3`, or an empty
list in mean-only mode) to `line_collections_runs`, and, when the version
has at least one data-bearing run, appends `[mean_line]` (alpha `1.0`,
labelled with the alias) to `line_collections_main` and the mean line to the
legend; a version with no runs gets `[]` in `line_collections_main` and no
legend entry.  `on_legend_click` looks the clicked label up in
`legend_lines_labels` (labels of data-bearing versions only) and uses that
index directly into both per-version collections. -/

/-- One entry of `version_data` as consumed by `_plot_versions`: the alias
and the non-empty smoothed run dataframes (value series). -/
abbrev VersionData := String × List (List ℚ)

/-- Display alphas of the line handles, per version slot. -/
structure DisplayState where
  main : List (List ℚ)
  runs : List (List ℚ)
deriving DecidableEq

/-- Line handles and alphas created by `_plot_versions`. -/
def initDisplay (plotMeanOnly : Bool) (vd : List VersionData) : DisplayState :=
  { main := vd.map (fun v => if v.2.isEmpty then [] else [1]),
    runs := vd.map (fun v =>
      if plotMeanOnly then [] else List.replicate v.2.length (3 / 10)) }

/-- `legend_lines_labels` (plot.py line 334): aliases of the versions that
have at least one data-bearing run, in enumeration order. -/
def legendLabels (vd : List VersionData) : List String :=
  (vd.filter (fun v => ! v.2.isEmpty)).map (fun v => v.1)

/-- `line.set_alpha(0 if line.get_alpha() > 0 else 1)` (plot.py line 283). -/
def toggleMainAlpha (a : ℚ) : ℚ := if 0 < a then 0 else 1

/-- `line.set_alpha(0 if line.get_alpha() > 0 else 0.3)` (plot.py line 287). -/
def toggleRunAlpha (a : ℚ) : ℚ := if 0 < a then 0 else 3 / 10

/-- Apply `f` to the element at index `n`, leaving the rest unchanged. -/
def modifyAt {α : Type} (f : α → α) : ℕ → List α → List α
  | _, [] => []
  | 0, x :: xs => f x :: xs
  | n + 1, x :: xs => x :: modifyAt f n xs

/-- The `on_legend_click` callback (plot.py lines 272-291): on a label that
appears in the legend, toggle the alphas of the line collections at
`legend_lines_labels.index(label)`; otherwise do nothing. -/
def onLegendClick (labels : List String) (label : String)
    (s : DisplayState) : DisplayState :=
  if label ∈ labels then
    { main := modifyAt (List.map toggleMainAlpha) (labels.indexOf label) s.main,
      runs := modifyAt (List.map toggleRunAlpha) (labels.indexOf label) s.runs }
  else s

lemma modifyAt_modifyAt {α : Type} (f g : α → α) :
    ∀ (n : ℕ) (l : List α),
      modifyAt f n (modifyAt g n l) = modifyAt (fun x => f (g x)) n l
  | 0, [] => rfl
  | _ + 1, [] => rfl
  | 0, x :: xs => rfl
  | n + 1, x :: xs => by
      simp [modifyAt, modifyAt_modifyAt f g n xs]

lemma modifyAt_eq_self {α : Type} (f : α → α) :
    ∀ (n : ℕ) (l : List α), (∀ x ∈ l, f x = x) → modifyAt f n l = l
  | 0, [], _ => rfl
  | _ + 1, [], _ => rfl
  | 0, x :: xs, h => by
      simp [modifyAt, h x (List.mem_cons_self x xs)]
  | n + 1, x :: xs, h => by
      simp [modifyAt,
        modifyAt_eq_self f n xs (fun y hy => h y (List.mem_cons_of_mem x hy))]

lemma modifyAt_getD_ne {α : Type} (f : α → α) (d : α) :
    ∀ (l : List α) (n i : ℕ), i ≠ n →
      (modifyAt f n l).getD i d = l.getD i d
  | [], n, _, _ => by cases n <;> simp [modifyAt]
  | x :: xs, 0, 0, h => absurd rfl h
  | x :: xs, 0, i + 1, _ => by simp [modifyAt]
  | x :: xs, n + 1, 0, _ => by simp [modifyAt]
  | x :: xs, n + 1, i + 1, h => by
      simp only [modifyAt, List.getD_cons_succ]
      exact modifyAt_getD_ne f d xs n i (fun he => h (by rw [he]))

/-- C7: a click whose label matches no legend label leaves the whole display
state unchanged (and, being a total function, raises nothing). -/
theorem unmatched_click_noop (vd : List VersionData) (label : String)
    (s : DisplayState) (h : label ∉ legendLabels vd) :
    onLegendClick (legendLabels vd) label s = s := by
  simp [onLegendClick, h]

/-- Witness for C7: clicking "Z" over a single version labelled "A". -/
theorem unmatched_click_noop_witness :
    ("Z" ∉ legendLabels [("A", [[1]])]) ∧
    onLegendClick (legendLabels [("A", [[1]])]) "Z"
        (initDisplay false [("A", [[1]])]) =
      initDisplay false [("A", [[1]])] :=
  ⟨by decide, unmatched_click_noop [("A", [[1]])] "Z"
    (initDisplay false [("A", [[1]])]) (by decide)⟩

/-- C6: from the freshly plotted display state (mean lines at alpha 1, run
lines at alpha 0.3), two consecutive clicks with the same label restore the
display state exactly, for every version arrangement, every label and both
run-line modes. -/
theorem toggle_round_trip (pmo : Bool) (vd : List VersionData)
    (label : String) :
    onLegendClick (legendLabels vd) label
      (onLegendClick (legendLabels vd) label (initDisplay pmo vd)) =
    initDisplay pmo vd := by
  by_cases hm : label ∈ legendLabels vd
  · have hmain : ∀ x ∈ (initDisplay pmo vd).main,
        List.map toggleMainAlpha (List.map toggleMainAlpha x) = x := by
      intro x hx
      simp only [initDisplay, List.mem_map] at hx
      obtain ⟨v, _, rfl⟩ := hx
      by_cases he : v.2.isEmpty <;> simp [he, toggleMainAlpha]
    have hruns : ∀ x ∈ (initDisplay pmo vd).runs,
        List.map toggleRunAlpha (List.map toggleRunAlpha x) = x := by
      intro x hx
      simp only [initDisplay, List.mem_map] at hx
      obtain ⟨v, _, rfl⟩ := hx
      by_cases hp : pmo <;>
        simp [hp, List.map_replicate, toggleRunAlpha]
    simp only [onLegendClick, if_pos hm]
    refine congrArg₂ DisplayState.mk ?_ ?_
    · rw [modifyAt_modifyAt]
      exact modifyAt_eq_self _ _ _ hmain
    · rw [modifyAt_modifyAt]
      exact modifyAt_eq_self _ _ _ hruns
  · simp [onLegendClick, hm]

/-- The `version_data` arrangement exposing the index misalignment: an empty
version precedes a data-bearing one. -/
def vdMisaligned : List VersionData := [("A", []), ("B", [[1], [2]])]

/-- C2 at the failing input: version "A" has no data (no legend entry but an
enumeration slot), version "B" has two runs.  Clicking "B" resolves to
legend index 0 and toggles version "A"'s empty placeholder collections, so
the whole display state is unchanged and "B"'s mean line stays at alpha 1 —
the clicked version's own lines are NOT toggled. -/
theorem misaligned_click_eval :
    legendLabels vdMisaligned = ["B"] ∧
    onLegendClick (legendLabels vdMisaligned) "B"
        (initDisplay false vdMisaligned) = initDisplay false vdMisaligned ∧
    (initDisplay false vdMisaligned).main.getD 1 [] = [1] ∧
    (initDisplay false vdMisaligned).runs.getD 1 [] = [3 / 10, 3 / 10] := by
  exact ⟨rfl, rfl, rfl, rfl⟩

lemma legendLabels_all_data (vd : List VersionData)
    (hall : ∀ v ∈ vd, v.2 ≠ []) :
    legendLabels vd = vd.map (fun v => v.1) := by
  unfold legendLabels
  rw [List.filter_eq_self.mpr]
  intro a ha
  simpa using hall a ha

lemma indexOf_map_fst_spec (label : String) :
    ∀ (l : List VersionData), label ∈ l.map (fun v => v.1) →
      (l.getD ((l.map (fun v => v.1)).indexOf label) ("", [])).1 = label ∧
      ∀ i, i < (l.map (fun v => v.1)).indexOf label →
        (l.getD i ("", [])).1 ≠ label
  | [], h => absurd h (by simp)
  | v :: t, h => by
      by_cases hv : v.1 = label
      · rw [List.map_cons, List.indexOf_cons_eq _ hv]
        exact ⟨hv, fun i hi => absurd hi (by omega)⟩
      · have hmem : label ∈ t.map (fun v => v.1) := by
          rw [List.map_cons] at h
          rcases List.mem_cons.mp h with h1 | h2
          · exact absurd h1.symm hv
          · exact h2
        have ih := indexOf_map_fst_spec label t hmem
        rw [List.map_cons, List.indexOf_cons_ne _ hv]
        refine ⟨by simpa using ih.1, ?_⟩
        intro i hi
        cases i with
        | zero => simpa using hv
        | succ j =>
            have hj : j < (t.map (fun v => v.1)).indexOf label := by omega
            simpa using ih.2 j hj

/-- Amended C10: when every version has at least one data-bearing run (so
legend indices and enumeration indices coincide), a click on a duplicated
label toggles exactly the slot of the FIRST version carrying that label —
that slot's alias is the label, no earlier slot carries it, both collections
are modified at that slot only, and every other slot is untouched. -/
theorem duplicate_label_first_match (vd : List VersionData) (label : String)
    (s : DisplayState) (hall : ∀ v ∈ vd, v.2 ≠ [])
    (hmem : label ∈ legendLabels vd) :
    (vd.getD ((legendLabels vd).indexOf label) ("", [])).1 = label ∧
    (∀ i, i < (legendLabels vd).indexOf label →
      (vd.getD i ("", [])).1 ≠ label) ∧
    (onLegendClick (legendLabels vd) label s).main =
      modifyAt (List.map toggleMainAlpha)
        ((legendLabels vd).indexOf label) s.main ∧
    (onLegendClick (legendLabels vd) label s).runs =
      modifyAt (List.map toggleRunAlpha)
        ((legendLabels vd).indexOf label) s.runs ∧
    (∀ i, i ≠ (legendLabels vd).indexOf label →
      (onLegendClick (legendLabels vd) label s).main.getD i [] =
        s.main.getD i [] ∧
      (onLegendClick (legendLabels vd) label s).runs.getD i [] =
        s.runs.getD i []) := by
  have hl : legendLabels vd = vd.map (fun v => v.1) :=
    legendLabels_all_data vd hall
  have hmem' : label ∈ vd.map (fun v => v.1) := hl ▸ hmem
  have hspec := indexOf_map_fst_spec label vd hmem'
  have hclick : onLegendClick (legendLabels vd) label s =
      { main := modifyAt (List.map toggleMainAlpha)
          ((legendLabels vd).indexOf label) s.main,
        runs := modifyAt (List.map toggleRunAlpha)
          ((legendLabels vd).indexOf label) s.runs } := by
    rw [onLegendClick, if_pos hmem]
  refine ⟨by rw [hl]; exact hspec.1, by rw [hl]; exact hspec.2, ?_, ?_, ?_⟩
  · rw [hclick]
  · rw [hclick]
  · intro i hi
    rw [hclick]
    exact ⟨modifyAt_getD_ne _ _ _ _ _ hi, modifyAt_getD_ne _ _ _ _ _ hi⟩

/-- Witness for the amended C10: two versions labelled "A" and one labelled
"B", all with data; clicking "A" targets slot 0. -/
theorem duplicate_label_first_match_witness :
    ((∀ v ∈ ([("A", [[1]]), ("A", [[2]]), ("B", [[3]])] : List VersionData),
        v.2 ≠ []) ∧
      "A" ∈ legendLabels [("A", [[1]]), ("A", [[2]]), ("B", [[3]])]) ∧
    ((([("A", [[1]]), ("A", [[2]]), ("B", [[3]])] : List VersionData).getD
        ((legendLabels [("A", [[1]]), ("A", [[2]]), ("B", [[3]])]).indexOf "A")
        ("", [])).1 = "A" ∧
      (∀ i, i < (legendLabels
            [("A", [[1]]), ("A", [[2]]), ("B", [[3]])]).indexOf "A" →
        (([("A", [[1]]), ("A", [[2]]), ("B", [[3]])] : List VersionData).getD
          i ("", [])).1 ≠ "A") ∧
      (onLegendClick (legendLabels [("A", [[1]]), ("A", [[2]]), ("B", [[3]])])
          "A" (initDisplay false
            [("A", [[1]]), ("A", [[2]]), ("B", [[3]])])).main =
        modifyAt (List.map toggleMainAlpha)
          ((legendLabels [("A", [[1]]), ("A", [[2]]), ("B", [[3]])]).indexOf
            "A")
          (initDisplay false
            [("A", [[1]]), ("A", [[2]]), ("B", [[3]])]).main ∧
      (onLegendClick (legendLabels [("A", [[1]]), ("A", [[2]]), ("B", [[3]])])
          "A" (initDisplay false
            [("A", [[1]]), ("A", [[2]]), ("B", [[3]])])).runs =
        modifyAt (List.map toggleRunAlpha)
          ((legendLabels [("A", [[1]]), ("A", [[2]]), ("B", [[3]])]).indexOf
            "A")
          (initDisplay false
            [("A", [[1]]), ("A", [[2]]), ("B", [[3]])]).runs ∧
      (∀ i, i ≠ (legendLabels
            [("A", [[1]]), ("A", [[2]]), ("B", [[3]])]).indexOf "A" →
        (onLegendClick (legendLabels
            [("A", [[1]]), ("A", [[2]]), ("B", [[3]])]) "A"
          (initDisplay false
            [("A", [[1]]), ("A", [[2]]), ("B", [[3]])])).main.getD i [] =
          (initDisplay false
            [("A", [[1]]), ("A", [[2]]), ("B", [[3]])]).main.getD i [] ∧
        (onLegendClick (legendLabels
            [("A", [[1]]), ("A", [[2]]), ("B", [[3]])]) "A"
          (initDisplay false
            [("A", [[1]]), ("A", [[2]]), ("B", [[3]])])).runs.getD i [] =
          (initDisplay false
            [("A", [[1]]), ("A", [[2]]), ("B", [[3]])]).runs.getD i [])) :=
  ⟨⟨by intro v hv; fin_cases hv <;> simp, by decide⟩,
    duplicate_label_first_match [("A", [[1]]), ("A", [[2]]), ("B", [[3]])]
      "A" (initDisplay false [("A", [[1]]), ("A", [[2]]), ("B", [[3]])])
      (by intro v hv; fin_cases hv <;> simp) (by decide)⟩

/-- An arrangement with duplicated label "A" where the misalignment lets a
click reach a LATER version carrying the duplicated label: slot 0 is "A"
with data, slot 1 is an empty version, slot 2 is a second "A" with data,
slot 3 is "B" with data. -/
def vdDup : List VersionData :=
  [("A", [[1]]), ("E", []), ("A", [[2]]), ("B", [[3]])]

/-- Counterexample to C10: in `vdDup` the legend labels are
["A", "A", "B"]; clicking "B" resolves to index 2 and toggles slot 2 — the
LATER version carrying the duplicated label "A" — flipping its mean line
from alpha 1 to alpha 0.  So a later same-label version IS toggled by a
click, contrary to the claim. -/
theorem duplicate_label_cex :
    legendLabels vdDup = ["A", "A", "B"] ∧
    (vdDup.getD 0 ("", [])).1 = "A" ∧
    (vdDup.getD 2 ("", [])).1 = "A" ∧
    (initDisplay false vdDup).main.getD 2 [] = [1] ∧
    (onLegendClick (legendLabels vdDup) "B"
        (initDisplay false vdDup)).main.getD 2 [] = [0] := by
  refine ⟨rfl, rfl, rfl, rfl, ?_⟩
  have h1 : (legendLabels vdDup).indexOf "B" = 2 := by decide
  simp only [onLegendClick, if_pos (by decide : "B" ∈ legendLabels vdDup), h1]
  norm_num [initDisplay, vdDup, modifyAt, toggleMainAlpha]

/-! ## Startup pipeline and failure behaviour (plot.py lines 293-320)

`plot()` computes `alpha_i = 1 - alpha` (floored to `1e-4` when 0) and then
calls `_collect_version_data` BEFORE any figure is created.  There is no
validation of `alpha`: pandas raises inside `ewm` only when a run actually
carries the metric; a missing `log_dir` raises `FileNotFoundError` from
`os.listdir`.  Uncaught exceptions abort the process. -/

/-- One run directory: `some vals` when the configured metric is present
with those scalar values, `none` when the metric is absent. -/
structure RunDir where
  data : Option (List ℚ)

/-- One version directory: its resolved display label and run directories
in sorted order. -/
structure VersionDir where
  aliasLabel : String
  runs : List RunDir

/-- The log directory: `none` when `log_dir` does not exist, else the
version directories in sorted order. -/
structure FileSystem where
  logDir : Option (List VersionDir)

/-- `_extract_and_smooth_metrics` (plot.py lines 76-104): an absent metric
yields an empty frame before `ewm` is ever called; a present metric goes
through pandas `ewm`, including its alpha validation. -/
def extractAndSmooth (ai : ℚ) (r : RunDir) : Except String (List ℚ) :=
  match r.data with
  | none => .ok []
  | some vals => ewmChecked ai vals

/-- The run loop of `_collect_version_data` (plot.py lines 143-151): each
run is extracted and smoothed in order, keeping the non-empty frames; an
exception from any run aborts the whole collection. -/
def smoothRuns (ai : ℚ) : List RunDir → Except String (List (List ℚ))
  | [] => .ok []
  | r :: rs =>
    match extractAndSmooth ai r with
    | .error e => .error e
    | .ok df =>
      match smoothRuns ai rs with
      | .error e => .error e
      | .ok dfs => .ok (if df.isEmpty then dfs else df :: dfs)

/-- `_collect_version_data` (plot.py lines 106-158) over the sorted version
directories. -/
def collectVersionData (ai : ℚ) :
    List VersionDir → Except String (List VersionData)
  | [] => .ok []
  | v :: vs =>
    match smoothRuns ai v.runs with
    | .error e => .error e
    | .ok dfs =>
      match collectVersionData ai vs with
      | .error e => .error e
      | .ok rest => .ok ((v.aliasLabel, dfs) :: rest)

/-- The failure-relevant part of `plot()` (plot.py lines 311-320): invert
alpha with the floor, then collect all version data; a missing `log_dir`
raises from `os.listdir` before any figure exists. -/
def plotPipeline (fs : FileSystem) (alpha : ℚ) :
    Except String (List VersionData) :=
  match fs.logDir with
  | none => .error "FileNotFoundError"
  | some versions => collectVersionData (alphaEff alpha) versions

lemma alphaEff_out_of_range (alpha : ℚ) (h : alpha < 0 ∨ 1 < alpha) :
    ¬ (0 < alphaEff alpha ∧ alphaEff alpha ≤ 1) := by
  have hne : 1 - alpha ≠ 0 := by
    rcases h with h | h <;> intro he <;> nlinarith
  rw [alphaEff, if_neg hne]
  rintro ⟨hp, hl⟩
  rcases h with h | h
  · linarith
  · linarith

lemma smoothRuns_ok (ai : ℚ) (h : 0 < ai ∧ ai ≤ 1) :
    ∀ rs : List RunDir, ∃ dfs, smoothRuns ai rs = .ok dfs
  | [] => ⟨[], rfl⟩
  | r :: rs => by
      obtain ⟨dfs, hd⟩ := smoothRuns_ok ai h rs
      cases hr : r.data with
      | none =>
          exact ⟨dfs, by simp [smoothRuns, extractAndSmooth, hr, hd]⟩
      | some vals =>
          refine ⟨if (pandasEwm ai vals).isEmpty then dfs
            else pandasEwm ai vals :: dfs, ?_⟩
          simp [smoothRuns, extractAndSmooth, hr, ewmChecked, if_pos h, hd]

lemma collectVersionData_ok (ai : ℚ) (h : 0 < ai ∧ ai ≤ 1) :
    ∀ vs : List VersionDir, ∃ out, collectVersionData ai vs = .ok out
  | [] => ⟨[], rfl⟩
  | v :: vs => by
      obtain ⟨dfs, hd⟩ := smoothRuns_ok ai h v.runs
      obtain ⟨rest, hr⟩ := collectVersionData_ok ai h vs
      exact ⟨(v.aliasLabel, dfs) :: rest,
        by simp [collectVersionData, hd, hr]⟩

lemma smoothRuns_err (ai : ℚ) (hbad : ¬ (0 < ai ∧ ai ≤ 1)) :
    ∀ rs : List RunDir, (∃ r ∈ rs, r.data ≠ none) →
      ∃ e, smoothRuns ai rs = .error e
  | [], hex => absurd hex (by simp)
  | r :: rs, hex => by
      cases hr : r.data with
      | some vals =>
          exact ⟨"alpha must satisfy 0 < alpha <= 1",
            by simp [smoothRuns, extractAndSmooth, hr, ewmChecked,
              if_neg hbad]⟩
      | none =>
          have hex' : ∃ r' ∈ rs, r'.data ≠ none := by
            obtain ⟨r', hr', hd'⟩ := hex
            rcases List.mem_cons.mp hr' with h1 | h2
            · exact absurd (h1 ▸ hr) hd'
            · exact ⟨r', h2, hd'⟩
          obtain ⟨e, he⟩ := smoothRuns_err ai hbad rs hex'
          exact ⟨e, by simp [smoothRuns, extractAndSmooth, hr, he]⟩

lemma collectVersionData_err (ai : ℚ) (hbad : ¬ (0 < ai ∧ ai ≤ 1)) :
    ∀ vs : List VersionDir, (∃ v ∈ vs, ∃ r ∈ v.runs, r.data ≠ none) →
      ∃ e, collectVersionData ai vs = .error e
  | [], hex => absurd hex (by simp)
  | v :: vs, hex => by
      cases hsm : smoothRuns ai v.runs with
      | error e => exact ⟨e, by simp [collectVersionData, hsm]⟩
      | ok dfs =>
          have hex' : ∃ v' ∈ vs, ∃ r ∈ v'.runs, r.data ≠ none := by
            obtain ⟨v', hv', hr'⟩ := hex
            rcases List.mem_cons.mp hv' with h1 | h2
            · obtain ⟨e, he⟩ := smoothRuns_err ai hbad v.runs (h1 ▸ hr')
              rw [he] at hsm
              exact absurd hsm (by simp)
            · exact ⟨v', h2, hr'⟩
          obtain ⟨e, he⟩ := collectVersionData_err ai hbad vs hex'
          exact ⟨e, by simp [collectVersionData, hsm, he]⟩

/-- Amended C4: a missing `log_dir` always aborts before any rendering; an
alpha outside `[0, 1]` aborts only when some run actually carries the
metric (the error surfaces from pandas inside the collection step, not from
startup validation); and when `log_dir` exists and alpha is in `[0, 1]`,
the pipeline never aborts. -/
theorem plot_failure_modes (fs : FileSystem) (alpha : ℚ) :
    (fs.logDir = none → plotPipeline fs alpha = .error "FileNotFoundError") ∧
    (∀ vs, fs.logDir = some vs → (alpha < 0 ∨ 1 < alpha) →
      (∃ v ∈ vs, ∃ r ∈ v.runs, r.data ≠ none) →
      ∃ e, plotPipeline fs alpha = .error e) ∧
    (∀ vs, fs.logDir = some vs → 0 ≤ alpha → alpha ≤ 1 →
      ∃ out, plotPipeline fs alpha = .ok out) := by
  refine ⟨?_, ?_, ?_⟩
  · intro h
    simp [plotPipeline, h]
  · intro vs hdir hout hex
    obtain ⟨e, he⟩ := collectVersionData_err (alphaEff alpha)
      (alphaEff_out_of_range alpha hout) vs hex
    exact ⟨e, by simp [plotPipeline, hdir, he]⟩
  · intro vs hdir h0 h1
    obtain ⟨out, ho⟩ := collectVersionData_ok (alphaEff alpha)
      (alphaEff_mem alpha h0 h1) vs
    exact ⟨out, by simp [plotPipeline, hdir, ho]⟩

/-- A version directory whose single run carries the metric. -/
def vDirData : VersionDir := ⟨"v1", [⟨some [1, 2]⟩]⟩

/-- Witness for the amended C4: a missing log dir errors; alpha 2 with a
data-bearing run errors; alpha 1/2 with an existing (empty) log dir
succeeds. -/
theorem plot_failure_modes_witness :
    (FileSystem.mk none).logDir = none ∧
    plotPipeline ⟨none⟩ (1 / 2) = .error "FileNotFoundError" ∧
    ((2 : ℚ) < 0 ∨ (1 : ℚ) < 2) ∧
    (∃ e, plotPipeline ⟨some [vDirData]⟩ 2 = .error e) ∧
    ((0 : ℚ) ≤ 1 / 2 ∧ (1 : ℚ) / 2 ≤ 1 ∧
      ∃ out, plotPipeline ⟨some []⟩ (1 / 2) = .ok out) :=
  ⟨rfl,
    (plot_failure_modes ⟨none⟩ (1 / 2)).1 rfl,
    Or.inr (by norm_num),
    (plot_failure_modes ⟨some [vDirData]⟩ 2).2.1 [vDirData] rfl
      (Or.inr (by norm_num))
      ⟨vDirData, by simp, ⟨some [1, 2]⟩, by simp [vDirData], by simp⟩,
    by norm_num, by norm_num,
    (plot_failure_modes ⟨some []⟩ (1 / 2)).2.2 [] rfl (by norm_num)
      (by norm_num)⟩

/-- Counterexample to C4: with an existing but empty `log_dir` and
`alpha = 2` (outside `[0, 1]`), the program does not fail at all — the
pipeline completes and an empty plot is rendered (empty legend, no mean
curves). -/
theorem out_of_range_alpha_accepted :
    ((1 : ℚ) < 2) ∧ plotPipeline ⟨some []⟩ 2 = .ok [] ∧
    legendLabels [] = [] :=
  ⟨by norm_num, rfl, rfl⟩

end TBPlotter
